import Mathlib

/-!
Shallow embedding of the `timeintervals` library (`time_interval.py`, `time_set.py`).

Instants are modelled as integers: the source only requires a totally ordered
timestamp type whose subtraction yields a duration.  A `TimeInterval` is a pair
of instants; the constructor validation (`check_end_gt_start`) is modelled by
`TimeInterval.create`, which returns an error exactly when the source raises
`InvalidTimeIntervalError`.  A `TimeSet` wraps a list of intervals; its equality
is the source's positional list equality.
-/

structure TimeInterval where
  start : Int
  «end» : Int
deriving DecidableEq

/-- The construction invariant enforced by `check_end_gt_start`. -/
def TimeInterval.valid (ti : TimeInterval) : Prop := ti.start ≤ ti.«end»

instance (ti : TimeInterval) : Decidable ti.valid := by
  unfold TimeInterval.valid; infer_instance

inductive TimeIntervalError where
  | invalidTimeInterval
deriving DecidableEq

/-- Validated construction: `check_end_gt_start` raises when `end < start`. -/
def TimeInterval.create (start «end» : Int) : Except TimeIntervalError TimeInterval :=
  if «end» < start then Except.error TimeIntervalError.invalidTimeInterval
  else Except.ok (TimeInterval.mk start «end»)

/-- `time_elapsed`: the duration `end - start`. -/
def TimeInterval.time_elapsed (ti : TimeInterval) : Int := ti.«end» - ti.start

/-- `is_nested_in`: `start >= other.start and end <= other.end`. -/
def TimeInterval.is_nested_in (a other : TimeInterval) : Bool :=
  decide (a.start ≥ other.start) && decide (a.«end» ≤ other.«end»)

/-- `is_disjoint_with`: `end <= other.start or other.end <= start`. -/
def TimeInterval.is_disjoint_with (a other : TimeInterval) : Bool :=
  decide (a.«end» ≤ other.start) || decide (other.«end» ≤ a.start)

/-- `TimeInterval.is_empty`: `start == end`. -/
def TimeInterval.is_empty (ti : TimeInterval) : Bool := decide (ti.start = ti.«end»)

structure TimeSet where
  time_intervals : List TimeInterval
deriving DecidableEq

/-- `TimeSet.__add__` with a `TimeSet` operand: list concatenation. -/
def TimeSet.add_set (a other : TimeSet) : TimeSet :=
  TimeSet.mk (a.time_intervals ++ other.time_intervals)

/-- `TimeSet.__add__` with a `TimeInterval` operand: append. -/
def TimeSet.add_interval (a : TimeSet) (other : TimeInterval) : TimeSet :=
  TimeSet.mk (a.time_intervals ++ [other])

/-- `TimeSet.is_empty`: `len(self.time_intervals) == 0`. -/
def TimeSet.is_empty (ts : TimeSet) : Bool := ts.time_intervals.length == 0

/-- `_subtract_nested_timeintervals`: the subtrahend is nested in the minuend. -/
def TimeSet.subtract_nested_timeintervals (minuend subtrahend : TimeInterval) : TimeSet :=
  if minuend.start = subtrahend.start then
    TimeSet.mk [TimeInterval.mk subtrahend.«end» minuend.«end»]
  else if minuend.«end» = subtrahend.«end» then
    TimeSet.mk [TimeInterval.mk minuend.start subtrahend.start]
  else
    TimeSet.mk [TimeInterval.mk minuend.start subtrahend.start,
                TimeInterval.mk subtrahend.«end» minuend.«end»]

/-- `_subtract_non_nested_timeintervals`: overlapping, non-nested operands.
The final branch raises `ValueError` in the source (reachable only by calling
the helper directly on nested operands); it is modelled as `none`. -/
def TimeSet.subtract_non_nested_timeintervals (minuend subtrahend : TimeInterval) :
    Option TimeSet :=
  if minuend.start < subtrahend.start then
    some (TimeSet.mk [TimeInterval.mk minuend.start subtrahend.start])
  else if minuend.start > subtrahend.start then
    some (TimeSet.mk [TimeInterval.mk subtrahend.«end» minuend.«end»])
  else
    none

/-- `_subtract_timeinterval_from_timeinterval`: the four-way dispatch.  The
result is an `Option` because the non-nested helper's error branch would
propagate; `subtract_tt_eq_some` below shows it never does. -/
def TimeSet.subtract_timeinterval_from_timeinterval (minuend subtrahend : TimeInterval) :
    Option TimeSet :=
  if minuend.is_disjoint_with subtrahend then some (TimeSet.mk [minuend])
  else if minuend.is_nested_in subtrahend then some (TimeSet.mk [])
  else if subtrahend.is_nested_in minuend then
    some (TimeSet.subtract_nested_timeintervals minuend subtrahend)
  else
    TimeSet.subtract_non_nested_timeintervals minuend subtrahend

/-- The total value of the interval-minus-interval dispatch. -/
def TimeSet.subtract_tt_total (minuend subtrahend : TimeInterval) : TimeSet :=
  (TimeSet.subtract_timeinterval_from_timeinterval minuend subtrahend).getD (TimeSet.mk [])

@[simp] theorem is_disjoint_with_iff (a b : TimeInterval) :
    a.is_disjoint_with b = true ↔ (a.«end» ≤ b.start ∨ b.«end» ≤ a.start) := by
  simp [TimeInterval.is_disjoint_with]

@[simp] theorem is_nested_in_iff (a b : TimeInterval) :
    a.is_nested_in b = true ↔ (b.start ≤ a.start ∧ a.«end» ≤ b.«end») := by
  simp [TimeInterval.is_nested_in, ge_iff_le]

@[simp] theorem timeset_is_empty_iff (ts : TimeSet) :
    ts.is_empty = true ↔ ts.time_intervals = [] := by
  simp [TimeSet.is_empty, List.length_eq_zero]

theorem subtract_tt_eq_some (m s : TimeInterval) :
    TimeSet.subtract_timeinterval_from_timeinterval m s =
      some (TimeSet.subtract_tt_total m s) := by
  have h : (TimeSet.subtract_timeinterval_from_timeinterval m s).isSome := by
    unfold TimeSet.subtract_timeinterval_from_timeinterval
    by_cases hd : m.is_disjoint_with s
    · simp [hd]
    · by_cases hmn : m.is_nested_in s
      · simp [hd, hmn]
      · by_cases hsn : s.is_nested_in m
        · simp [hd, hmn, hsn]
        · have hmn' : ¬(s.start ≤ m.start ∧ m.«end» ≤ s.«end») := by
            simpa using hmn
          have hsn' : ¬(m.start ≤ s.start ∧ s.«end» ≤ m.«end») := by
            simpa using hsn
          have hne : m.start ≠ s.start := by
            intro he
            rcases le_total m.«end» s.«end» with h4 | h4
            · exact hmn' ⟨le_of_eq he.symm, h4⟩
            · exact hsn' ⟨le_of_eq he, h4⟩
          simp only [hd, hmn, hsn, if_neg, Bool.false_eq_true, if_false,
            TimeSet.subtract_non_nested_timeintervals]
          rcases lt_trichotomy m.start s.start with h | h | h
          · simp [h]
          · exact absurd h hne
          · simp [not_lt.mpr (le_of_lt h), h, gt_iff_lt]
  rw [Option.isSome_iff_exists] at h
  obtain ⟨t, ht⟩ := h
  simp [TimeSet.subtract_tt_total, ht]

/-- `_subtract_timeinterval_from_timeset`: map, drop empties, fold with addition. -/
def TimeSet.subtract_timeinterval_from_timeset (minuend : TimeSet) (subtrahend : TimeInterval) :
    TimeSet :=
  let differences :=
    minuend.time_intervals.map (fun ti => TimeSet.subtract_tt_total ti subtrahend)
  let differences := differences.filter (fun ts => !ts.is_empty)
  differences.foldl TimeSet.add_set (TimeSet.mk [])

/-- The comparator used by the source's `sorted(..., key=lambda ti: ti.start)`. -/
def byStart (a b : TimeInterval) : Bool := decide (a.start ≤ b.start)

/-- The inner loop of `_subtract_timeset_from_timeset`: subtract each sorted
subtrahend in turn, stopping when the running difference is empty or when the
current subtrahend starts after every end in the difference. -/
def TimeSet.subtract_loop (diff : TimeSet) : List TimeInterval → TimeSet
  | [] => diff
  | s :: rest =>
    let diff2 := TimeSet.subtract_timeinterval_from_timeset diff s
    if diff2.is_empty then diff2
    else
      match diff2.time_intervals.map (fun ti => ti.«end») with
      | [] => diff2
      | e :: es => if es.foldl max e < s.start then diff2 else TimeSet.subtract_loop diff2 rest

/-- `_subtract_timeset_from_timeset`: sort both operand lists by start, run the
inner loop for each minuend interval, and concatenate the non-empty results. -/
def TimeSet.subtract_timeset_from_timeset (minuend subtrahend : TimeSet) : TimeSet :=
  let sortedM := minuend.time_intervals.mergeSort byStart
  let sortedS := subtrahend.time_intervals.mergeSort byStart
  TimeSet.mk (sortedM.foldl
    (fun differences m =>
      let diff := TimeSet.subtract_loop (TimeSet.mk [m]) sortedS
      if diff.is_empty then differences else differences ++ diff.time_intervals)
    [])

/-- The sweep loop of `compute_internal_union`, over the sorted interval list. -/
def unionSweep (cs ce : Int) : List TimeInterval → List TimeInterval
  | [] => [TimeInterval.mk cs ce]
  | i :: rest =>
    if !((TimeInterval.mk cs ce).is_disjoint_with i) then
      if ce < i.«end» then unionSweep cs i.«end» rest else unionSweep cs ce rest
    else if i.start = ce then
      unionSweep cs i.«end» rest
    else
      TimeInterval.mk cs ce :: unionSweep i.start i.«end» rest

/-- `compute_internal_union`: sort by start, then sweep merging overlapping or
touching runs.  The sweep iterates over the whole sorted list, first element
included, exactly as the source's `for interval in intervals` loop does. -/
def TimeSet.compute_internal_union (ts : TimeSet) : TimeSet :=
  match ts.time_intervals with
  | [] => TimeSet.mk []
  | _ :: _ =>
    match ts.time_intervals.mergeSort byStart with
    | [] => TimeSet.mk []
    | first :: rest => TimeSet.mk (unionSweep first.start first.«end» (first :: rest))

/-- `_timeinterval_intersection`: pairwise intersection, `none` propagating. -/
def TimeSet.timeinterval_intersection (t1 : Option TimeInterval) (t2 : TimeInterval) :
    Option TimeInterval :=
  match t1 with
  | none => none
  | some t1 =>
    if t1.is_disjoint_with t2 then none
    else if t1.is_nested_in t2 then some t1
    else if t2.is_nested_in t1 then some t2
    else some (TimeInterval.mk (max t1.start t2.start) (min t1.«end» t2.«end»))

/-- `compute_internal_intersection`: fold pairwise intersection over members. -/
def TimeSet.compute_internal_intersection (ts : TimeSet) : TimeSet :=
  if ts.is_empty then TimeSet.mk []
  else
    match ts.time_intervals with
    | [] => TimeSet.mk []
    | first :: rest =>
      match rest.foldl TimeSet.timeinterval_intersection (some first) with
      | some i => TimeSet.mk [i]
      | none => TimeSet.mk []

/-- `compute_intersection`: normalize both sides, intersect all pairs. -/
def TimeSet.compute_intersection (a other : TimeSet) : TimeSet :=
  let ua := a.compute_internal_union
  let uo := other.compute_internal_union
  TimeSet.mk (ua.time_intervals.flatMap (fun ti =>
    uo.time_intervals.filterMap (fun tj => TimeSet.timeinterval_intersection (some ti) tj)))

/-- `compute_union`: concatenate and normalize. -/
def TimeSet.compute_union (a other : TimeSet) : TimeSet :=
  (TimeSet.mk (a.time_intervals ++ other.time_intervals)).compute_internal_union

/-- The `start` a member is clipped to: `if new_start is not None and
start < new_start: start = new_start`. -/
def clampStart (new_start : Option Int) (ti : TimeInterval) : Int :=
  match new_start with
  | some ns => if ti.start < ns then ns else ti.start
  | none => ti.start

/-- The `end` a member is clipped to: `if new_end is not None and
end > new_end: end = new_end`. -/
def clampEnd (new_end : Option Int) (ti : TimeInterval) : Int :=
  match new_end with
  | some ne => if ti.«end» > ne then ne else ti.«end»
  | none => ti.«end»

/-- `clamp`: clip each member to the optional bounds, keeping it when the
clipped `end` is still at least the clipped `start`. -/
def TimeSet.clamp (ts : TimeSet) (new_start new_end : Option Int) : TimeSet :=
  TimeSet.mk (ts.time_intervals.foldl
    (fun acc ti =>
      let s := clampStart new_start ti
      let e := clampEnd new_end ti
      if e ≥ s then acc ++ [TimeInterval.mk s e] else acc)
    [])

/-- Claim C8: interval construction succeeds exactly when `start <= end`;
with `end < start` it fails with the invalid-interval error, and on success
`time_elapsed` equals `end - start`. -/
theorem c8_create_iff_ordered (s e : Int) :
    (e < s → TimeInterval.create s e = Except.error TimeIntervalError.invalidTimeInterval) ∧
    (s ≤ e → ∃ ti, TimeInterval.create s e = Except.ok ti ∧ ti.time_elapsed = e - s) := by
  constructor
  · intro h
    simp [TimeInterval.create, h]
  · intro h
    refine ⟨TimeInterval.mk s e, ?_, ?_⟩
    · simp [TimeInterval.create, not_lt.mpr h]
    · simp [TimeInterval.time_elapsed]

/-- Witness for C8 at `(2,1)` and `(0,3)`. -/
theorem c8_create_iff_ordered_witness :
    (TimeInterval.create 2 1 = Except.error TimeIntervalError.invalidTimeInterval) ∧
    (∃ ti, TimeInterval.create 0 3 = Except.ok ti ∧ ti.time_elapsed = 3 - 0) :=
  ⟨(c8_create_iff_ordered 2 1).1 (by norm_num), (c8_create_iff_ordered 0 3).2 (by norm_num)⟩

/-- Claim C10: subtracting a single-point interval strictly inside the minuend
splits the minuend into the two touching pieces, rather than leaving it
unchanged. -/
theorem c10_point_subtrahend_splits (a t b : Int) (h1 : a < t) (h2 : t < b) :
    TimeSet.subtract_timeinterval_from_timeinterval (TimeInterval.mk a b) (TimeInterval.mk t t) =
      some (TimeSet.mk [TimeInterval.mk a t, TimeInterval.mk t b]) := by
  have hd : (TimeInterval.mk a b).is_disjoint_with (TimeInterval.mk t t) = false := by
    simp [TimeInterval.is_disjoint_with]
    omega
  have hmn : (TimeInterval.mk a b).is_nested_in (TimeInterval.mk t t) = false := by
    simp [TimeInterval.is_nested_in]
    omega
  have hsn : (TimeInterval.mk t t).is_nested_in (TimeInterval.mk a b) = true := by
    simp [TimeInterval.is_nested_in]
    omega
  simp [TimeSet.subtract_timeinterval_from_timeinterval, hd, hmn, hsn,
    TimeSet.subtract_nested_timeintervals, h1.ne, h2.ne']

/-- Witness for C10 at `a = 0, t = 1, b = 2`. -/
theorem c10_point_subtrahend_splits_witness :
    TimeSet.subtract_timeinterval_from_timeinterval (TimeInterval.mk 0 2) (TimeInterval.mk 1 1) =
      some (TimeSet.mk [TimeInterval.mk 0 1, TimeInterval.mk 1 2]) :=
  c10_point_subtrahend_splits 0 1 2 (by norm_num) (by norm_num)

/-- Claim C4: `is_disjoint_with` is symmetric, and for `t0 < t1 < t2` the
touching intervals `[t0,t1]` and `[t1,t2]` are disjoint in both directions
yet `compute_internal_union` merges them into `[t0,t2]`. -/
theorem c4_touching_disjoint_but_merged :
    (∀ a b : TimeInterval, a.is_disjoint_with b = b.is_disjoint_with a) ∧
    (∀ t0 t1 t2 : Int, t0 < t1 → t1 < t2 →
      (TimeInterval.mk t0 t1).is_disjoint_with (TimeInterval.mk t1 t2) = true ∧
      (TimeInterval.mk t1 t2).is_disjoint_with (TimeInterval.mk t0 t1) = true ∧
      (TimeSet.mk [TimeInterval.mk t0 t1, TimeInterval.mk t1 t2]).compute_internal_union =
        TimeSet.mk [TimeInterval.mk t0 t2]) := by
  constructor
  · intro a b
    simp [TimeInterval.is_disjoint_with, Bool.or_comm]
  · intro t0 t1 t2 h1 h2
    refine ⟨by simp [TimeInterval.is_disjoint_with], by simp [TimeInterval.is_disjoint_with], ?_⟩
    have hsorted :
        List.Pairwise (fun a b => byStart a b = true)
          [TimeInterval.mk t0 t1, TimeInterval.mk t1 t2] := by
      simp [byStart]
      omega
    have hms := List.mergeSort_of_sorted hsorted
    have hd1 : (TimeInterval.mk t0 t1).is_disjoint_with (TimeInterval.mk t0 t1) = false := by
      simp [TimeInterval.is_disjoint_with]
      omega
    have hd2 : (TimeInterval.mk t0 t1).is_disjoint_with (TimeInterval.mk t1 t2) = true := by
      simp [TimeInterval.is_disjoint_with]
    simp [TimeSet.compute_internal_union, hms, unionSweep, hd1, hd2, not_lt.mpr (le_of_lt h2)]

/-- Witness for C4 at `t0 = 0, t1 = 1, t2 = 2`. -/
theorem c4_touching_disjoint_but_merged_witness :
    (TimeInterval.mk 0 1).is_disjoint_with (TimeInterval.mk 1 2) = true ∧
    (TimeInterval.mk 1 2).is_disjoint_with (TimeInterval.mk 0 1) = true ∧
    (TimeSet.mk [TimeInterval.mk 0 1, TimeInterval.mk 1 2]).compute_internal_union =
      TimeSet.mk [TimeInterval.mk 0 2] :=
  c4_touching_disjoint_but_merged.2 0 1 2 (by norm_num) (by norm_num)

@[simp] theorem is_disjoint_with_false_iff (a b : TimeInterval) :
    a.is_disjoint_with b = false ↔ (b.start < a.«end» ∧ a.start < b.«end») := by
  simp [TimeInterval.is_disjoint_with]

@[simp] theorem is_nested_in_false_iff (a b : TimeInterval) :
    a.is_nested_in b = false ↔ (a.start < b.start ∨ b.«end» < a.«end») := by
  simp [TimeInterval.is_nested_in]
  omega

/-- Claim C1: the interval-minus-interval dispatch, case by case in the
source's guard order: disjoint keeps the minuend; a minuend nested in the
subtrahend vanishes; a subtrahend properly nested in the minuend leaves the
right piece, the left piece, or both pieces in that order; and in the
overlapping non-nested case the minuend is truncated on the side determined
by the order of the starts. -/
theorem c1_subtract_interval_cases (m s : TimeInterval) (hm : m.valid) (hs : s.valid) :
    (m.is_disjoint_with s = true →
      TimeSet.subtract_timeinterval_from_timeinterval m s = some (TimeSet.mk [m])) ∧
    (m.is_disjoint_with s = false → m.is_nested_in s = true →
      TimeSet.subtract_timeinterval_from_timeinterval m s = some (TimeSet.mk [])) ∧
    (m.is_disjoint_with s = false → m.is_nested_in s = false → s.is_nested_in m = true →
      ((m.start = s.start →
        TimeSet.subtract_timeinterval_from_timeinterval m s =
          some (TimeSet.mk [TimeInterval.mk s.«end» m.«end»])) ∧
       (m.«end» = s.«end» →
        TimeSet.subtract_timeinterval_from_timeinterval m s =
          some (TimeSet.mk [TimeInterval.mk m.start s.start])) ∧
       (m.start ≠ s.start → m.«end» ≠ s.«end» →
        TimeSet.subtract_timeinterval_from_timeinterval m s =
          some (TimeSet.mk [TimeInterval.mk m.start s.start,
                            TimeInterval.mk s.«end» m.«end»])))) ∧
    (m.is_disjoint_with s = false → m.is_nested_in s = false → s.is_nested_in m = false →
      ((m.start < s.start →
        TimeSet.subtract_timeinterval_from_timeinterval m s =
          some (TimeSet.mk [TimeInterval.mk m.start s.start])) ∧
       (s.start < m.start →
        TimeSet.subtract_timeinterval_from_timeinterval m s =
          some (TimeSet.mk [TimeInterval.mk s.«end» m.«end»])))) := by
  refine ⟨?_, ?_, ?_, ?_⟩
  · intro hd
    simp [TimeSet.subtract_timeinterval_from_timeinterval, hd]
  · intro hd hmn
    simp [TimeSet.subtract_timeinterval_from_timeinterval, hd, hmn]
  · intro hd hmn hsn
    have hmn' := (is_nested_in_false_iff m s).mp hmn
    have hsn' := (is_nested_in_iff s m).mp hsn
    refine ⟨?_, ?_, ?_⟩
    · intro he
      simp [TimeSet.subtract_timeinterval_from_timeinterval, hd, hmn, hsn,
        TimeSet.subtract_nested_timeintervals, he]
    · intro he
      have hne : m.start ≠ s.start := by omega
      simp [TimeSet.subtract_timeinterval_from_timeinterval, hd, hmn, hsn,
        TimeSet.subtract_nested_timeintervals, hne, he]
    · intro hne1 hne2
      simp [TimeSet.subtract_timeinterval_from_timeinterval, hd, hmn, hsn,
        TimeSet.subtract_nested_timeintervals, hne1, hne2]
  · intro hd hmn hsn
    constructor
    · intro hlt
      simp [TimeSet.subtract_timeinterval_from_timeinterval, hd, hmn, hsn,
        TimeSet.subtract_non_nested_timeintervals, hlt]
    · intro hgt
      simp [TimeSet.subtract_timeinterval_from_timeinterval, hd, hmn, hsn,
        TimeSet.subtract_non_nested_timeintervals, not_lt.mpr (le_of_lt hgt), hgt, gt_iff_lt]

/-- Witness for C1 at `m = [0,10]`, `s = [2,3]` (a properly nested subtrahend). -/
theorem c1_subtract_interval_cases_witness :
    ((TimeInterval.mk 0 10).is_disjoint_with (TimeInterval.mk 2 3) = true →
      TimeSet.subtract_timeinterval_from_timeinterval (TimeInterval.mk 0 10) (TimeInterval.mk 2 3) =
        some (TimeSet.mk [TimeInterval.mk 0 10])) ∧
    ((TimeInterval.mk 0 10).is_disjoint_with (TimeInterval.mk 2 3) = false →
      (TimeInterval.mk 0 10).is_nested_in (TimeInterval.mk 2 3) = true →
      TimeSet.subtract_timeinterval_from_timeinterval (TimeInterval.mk 0 10) (TimeInterval.mk 2 3) =
        some (TimeSet.mk [])) ∧
    ((TimeInterval.mk 0 10).is_disjoint_with (TimeInterval.mk 2 3) = false →
      (TimeInterval.mk 0 10).is_nested_in (TimeInterval.mk 2 3) = false →
      (TimeInterval.mk 2 3).is_nested_in (TimeInterval.mk 0 10) = true →
      (((TimeInterval.mk 0 10).start = (TimeInterval.mk 2 3).start →
        TimeSet.subtract_timeinterval_from_timeinterval (TimeInterval.mk 0 10) (TimeInterval.mk 2 3) =
          some (TimeSet.mk [TimeInterval.mk (TimeInterval.mk 2 3).«end» (TimeInterval.mk 0 10).«end»])) ∧
       ((TimeInterval.mk 0 10).«end» = (TimeInterval.mk 2 3).«end» →
        TimeSet.subtract_timeinterval_from_timeinterval (TimeInterval.mk 0 10) (TimeInterval.mk 2 3) =
          some (TimeSet.mk [TimeInterval.mk (TimeInterval.mk 0 10).start (TimeInterval.mk 2 3).start])) ∧
       ((TimeInterval.mk 0 10).start ≠ (TimeInterval.mk 2 3).start →
        (TimeInterval.mk 0 10).«end» ≠ (TimeInterval.mk 2 3).«end» →
        TimeSet.subtract_timeinterval_from_timeinterval (TimeInterval.mk 0 10) (TimeInterval.mk 2 3) =
          some (TimeSet.mk [TimeInterval.mk (TimeInterval.mk 0 10).start (TimeInterval.mk 2 3).start,
                            TimeInterval.mk (TimeInterval.mk 2 3).«end» (TimeInterval.mk 0 10).«end»])))) ∧
    ((TimeInterval.mk 0 10).is_disjoint_with (TimeInterval.mk 2 3) = false →
      (TimeInterval.mk 0 10).is_nested_in (TimeInterval.mk 2 3) = false →
      (TimeInterval.mk 2 3).is_nested_in (TimeInterval.mk 0 10) = false →
      (((TimeInterval.mk 0 10).start < (TimeInterval.mk 2 3).start →
        TimeSet.subtract_timeinterval_from_timeinterval (TimeInterval.mk 0 10) (TimeInterval.mk 2 3) =
          some (TimeSet.mk [TimeInterval.mk (TimeInterval.mk 0 10).start (TimeInterval.mk 2 3).start])) ∧
       ((TimeInterval.mk 2 3).start < (TimeInterval.mk 0 10).start →
        TimeSet.subtract_timeinterval_from_timeinterval (TimeInterval.mk 0 10) (TimeInterval.mk 2 3) =
          some (TimeSet.mk [TimeInterval.mk (TimeInterval.mk 2 3).«end» (TimeInterval.mk 0 10).«end»])))) :=
  c1_subtract_interval_cases (TimeInterval.mk 0 10) (TimeInterval.mk 2 3) (by decide) (by decide)

/-- The per-interval clipping rule exactly as the specification of `clamp`
describes it: raise `start` to `new_start` when that bound is set and is above
`start`, lower `end` to `new_end` when that bound is set and is below `end`,
and keep the clipped interval exactly when its `end` is still at least its
`start`. -/
def clampClipSpec (new_start new_end : Option Int) (ti : TimeInterval) : Option TimeInterval :=
  if clampEnd new_end ti ≥ clampStart new_start ti then
    some (TimeInterval.mk (clampStart new_start ti) (clampEnd new_end ti))
  else none

theorem clamp_fold_eq (new_start new_end : Option Int) :
    ∀ (l : List TimeInterval) (acc : List TimeInterval),
      l.foldl
        (fun acc ti =>
          let s := clampStart new_start ti
          let e := clampEnd new_end ti
          if e ≥ s then acc ++ [TimeInterval.mk s e] else acc)
        acc = acc ++ l.filterMap (clampClipSpec new_start new_end) := by
  intro l
  induction l with
  | nil => intro acc; simp
  | cons ti l ih =>
    intro acc
    simp only [List.foldl_cons, List.filterMap_cons, clampClipSpec]
    by_cases hk : clampEnd new_end ti ≥ clampStart new_start ti
    · simp [hk, ih]
    · simp [hk, ih]

theorem clampStart_some (ns : Int) (ti : TimeInterval) :
    clampStart (some ns) ti = max ti.start ns := by
  show (if ti.start < ns then ns else ti.start) = max ti.start ns
  split <;> omega

theorem clampEnd_some (ne : Int) (ti : TimeInterval) :
    clampEnd (some ne) ti = min ti.«end» ne := by
  show (if ti.«end» > ne then ne else ti.«end») = min ti.«end» ne
  split <;> omega

theorem clampStart_none (ti : TimeInterval) : clampStart none ti = ti.start := rfl

theorem clampEnd_none (ti : TimeInterval) : clampEnd none ti = ti.«end» := rfl

theorem clampClipSpec_eq_none_iff (ns ne : Option Int) (ti : TimeInterval) :
    clampClipSpec ns ne ti = none ↔ clampEnd ne ti < clampStart ns ti := by
  unfold clampClipSpec
  split_ifs with h
  · simp
    omega
  · simp
    omega

/-- Claim C7: `clamp` keeps, in original relative order, exactly the members
whose clipped `end` is at least their clipped `start` (the clip raising `start`
to a set `new_start` lying above it and lowering `end` to a set `new_end` lying
below it), and a member is dropped precisely when no instant of it lies in the
clamp window. -/
theorem c7_clamp_characterization (ts : TimeSet) (new_start new_end : Option Int)
    (hv : ∀ ti ∈ ts.time_intervals, ti.valid) :
    (ts.clamp new_start new_end).time_intervals =
      ts.time_intervals.filterMap (clampClipSpec new_start new_end) ∧
    ∀ ti ∈ ts.time_intervals,
      (clampClipSpec new_start new_end ti = none ↔
        ∀ t : Int, ti.start ≤ t → t ≤ ti.«end» →
          ¬((∀ ns, new_start = some ns → ns ≤ t) ∧ (∀ ne, new_end = some ne → t ≤ ne))) := by
  constructor
  · show (ts.clamp new_start new_end).time_intervals = _
    unfold TimeSet.clamp
    simpa using clamp_fold_eq new_start new_end ts.time_intervals []
  · intro ti hti
    have hvt : ti.start ≤ ti.«end» := hv ti hti
    rw [clampClipSpec_eq_none_iff]
    rcases new_start with _ | ns <;> rcases new_end with _ | ne <;>
      simp only [clampStart_some, clampEnd_some, clampStart_none, clampEnd_none,
        Option.some.injEq, forall_eq', reduceCtorEq, false_implies, implies_true,
        true_and, and_true, not_and, not_le, not_true]
    · constructor
      · intro h t h1 h2
        omega
      · intro h
        exact (h ti.start le_rfl hvt).elim
    · constructor
      · intro h t h1 h2
        omega
      · intro h
        have h2 := h ti.start le_rfl hvt
        omega
    · constructor
      · intro h t h1 h2
        omega
      · intro h
        have h2 := h ti.«end» hvt le_rfl
        omega
    · constructor
      · intro h t h1 h2 h3
        omega
      · intro h
        by_contra hc
        push_neg at hc
        have h2 := h (ti.start ⊔ ns) le_sup_left (by omega) le_sup_right
        omega

/-- Witness for C7: the set `[[0,5]]` clamped to the window `[1,3]`. -/
theorem c7_clamp_characterization_witness :
    ((TimeSet.mk [TimeInterval.mk 0 5]).clamp (some 1) (some 3)).time_intervals =
      (TimeSet.mk [TimeInterval.mk 0 5]).time_intervals.filterMap
        (clampClipSpec (some 1) (some 3)) ∧
    ∀ ti ∈ (TimeSet.mk [TimeInterval.mk 0 5]).time_intervals,
      (clampClipSpec (some 1) (some 3) ti = none ↔
        ∀ t : Int, ti.start ≤ t → t ≤ ti.«end» →
          ¬((∀ ns, (some 1 : Option Int) = some ns → ns ≤ t) ∧
            (∀ ne, (some 3 : Option Int) = some ne → t ≤ ne))) :=
  c7_clamp_characterization (TimeSet.mk [TimeInterval.mk 0 5]) (some 1) (some 3) (by decide)

/-- Every member interval satisfies the construction invariant. -/
def TimeSet.all_valid (ts : TimeSet) : Prop := ∀ ti ∈ ts.time_intervals, ti.valid

instance (ts : TimeSet) : Decidable ts.all_valid := by
  unfold TimeSet.all_valid; infer_instance

theorem subtract_tt_total_valid (m s : TimeInterval) (hm : m.valid) (hs : s.valid) :
    (TimeSet.subtract_tt_total m s).all_valid := by
  have hm' : m.start ≤ m.«end» := hm
  have hs' : s.start ≤ s.«end» := hs
  unfold TimeSet.subtract_tt_total TimeSet.subtract_timeinterval_from_timeinterval
  by_cases hd : m.is_disjoint_with s
  · simp [hd, TimeSet.all_valid]
    exact hm
  · by_cases hmn : m.is_nested_in s
    · simp [hd, hmn, TimeSet.all_valid]
    · by_cases hsn : s.is_nested_in m
      · have hsn' := (is_nested_in_iff s m).mp hsn
        simp only [hd, hmn, hsn, Bool.false_eq_true, if_false, if_true, Option.getD_some]
        unfold TimeSet.subtract_nested_timeintervals
        split_ifs with he1 he2 <;>
          simp [TimeSet.all_valid, TimeInterval.valid] <;> omega
      · simp only [hd, hmn, hsn, Bool.false_eq_true, if_false]
        have hd' := (is_disjoint_with_false_iff m s).mp (Bool.eq_false_iff.mpr hd)
        have hmn' : ¬(s.start ≤ m.start ∧ m.«end» ≤ s.«end») := by
          simpa using hmn
        have hsn' : ¬(m.start ≤ s.start ∧ s.«end» ≤ m.«end») := by
          simpa using hsn
        unfold TimeSet.subtract_non_nested_timeintervals
        split_ifs with he1 he2 <;>
          simp [TimeSet.all_valid, TimeInterval.valid] <;> omega

theorem foldl_add_set (L : List TimeSet) :
    ∀ init : TimeSet,
      (L.foldl TimeSet.add_set init).time_intervals =
        init.time_intervals ++ L.flatMap TimeSet.time_intervals := by
  induction L with
  | nil => intro init; simp
  | cons t L ih =>
    intro init
    simp [ih, TimeSet.add_set]

theorem subtract_ti_ts_mem (d : TimeSet) (s : TimeInterval) :
    ∀ ti ∈ (TimeSet.subtract_timeinterval_from_timeset d s).time_intervals,
      ∃ m ∈ d.time_intervals, ti ∈ (TimeSet.subtract_tt_total m s).time_intervals := by
  intro ti hti
  unfold TimeSet.subtract_timeinterval_from_timeset at hti
  rw [foldl_add_set] at hti
  simp only [List.nil_append, List.mem_flatMap, List.mem_filter, List.mem_map] at hti
  obtain ⟨ts, ⟨⟨m, hm, rfl⟩, _⟩, hmem⟩ := hti
  exact ⟨m, hm, hmem⟩

theorem subtract_ti_ts_valid (d : TimeSet) (s : TimeInterval)
    (hd : d.all_valid) (hs : s.valid) :
    (TimeSet.subtract_timeinterval_from_timeset d s).all_valid := by
  intro ti hti
  obtain ⟨m, hm, hmem⟩ := subtract_ti_ts_mem d s ti hti
  exact subtract_tt_total_valid m s (hd m hm) hs ti hmem

theorem subtract_loop_valid :
    ∀ (ss : List TimeInterval) (d : TimeSet), d.all_valid → (∀ s ∈ ss, s.valid) →
      (TimeSet.subtract_loop d ss).all_valid := by
  intro ss
  induction ss with
  | nil => intro d hd _; exact hd
  | cons s rest ih =>
    intro d hd hs
    have hd2 : (TimeSet.subtract_timeinterval_from_timeset d s).all_valid :=
      subtract_ti_ts_valid d s hd (hs s (List.mem_cons_self s rest))
    simp only [TimeSet.subtract_loop]
    split_ifs with h1
    · exact hd2
    · cases hm : (TimeSet.subtract_timeinterval_from_timeset d s).time_intervals.map
          (fun ti => ti.«end») with
      | nil => simp only [hm]; exact hd2
      | cons e es =>
        simp only [hm]
        split_ifs with h2
        · exact hd2
        · exact ih _ hd2 (fun x hx => hs x (List.mem_cons_of_mem s hx))

theorem subtract_sets_fold (sortedS : List TimeInterval) (L : List TimeInterval) :
    ∀ acc : List TimeInterval,
      (L.foldl (fun differences m =>
          let diff := TimeSet.subtract_loop (TimeSet.mk [m]) sortedS
          if diff.is_empty then differences else differences ++ diff.time_intervals) acc)
      = acc ++ L.flatMap
          (fun m => (TimeSet.subtract_loop (TimeSet.mk [m]) sortedS).time_intervals) := by
  induction L with
  | nil => intro acc; simp
  | cons m L ih =>
    intro acc
    simp only [List.foldl_cons]
    rw [ih]
    by_cases h : (TimeSet.subtract_loop (TimeSet.mk [m]) sortedS).is_empty
    · have h' := (timeset_is_empty_iff _).mp h
      simp [h, h', List.flatMap_cons]
    · simp [h, List.flatMap_cons]

theorem subtract_sets_valid (A B : TimeSet) (hA : A.all_valid) (hB : B.all_valid) :
    (TimeSet.subtract_timeset_from_timeset A B).all_valid := by
  intro ti hti
  simp only [TimeSet.subtract_timeset_from_timeset] at hti
  rw [subtract_sets_fold] at hti
  simp only [List.nil_append, List.mem_flatMap] at hti
  obtain ⟨m, hm, hmem⟩ := hti
  have hmv : m.valid := hA m (List.mem_mergeSort.mp hm)
  have hloop : (TimeSet.subtract_loop (TimeSet.mk [m]) (B.time_intervals.mergeSort byStart)).all_valid := by
    refine subtract_loop_valid _ _ ?_ ?_
    · intro x hx
      simp only [List.mem_singleton] at hx
      subst hx
      exact hmv
    · intro x hx
      exact hB x (List.mem_mergeSort.mp hx)
  exact hloop ti hmem

theorem unionSweep_valid :
    ∀ (l : List TimeInterval) (cs ce : Int), cs ≤ ce → (∀ i ∈ l, i.valid) →
      ∀ x ∈ unionSweep cs ce l, x.valid := by
  intro l
  induction l with
  | nil =>
    intro cs ce hce _ x hx
    simp only [unionSweep, List.mem_singleton] at hx
    subst hx
    exact hce
  | cons i rest ih =>
    intro cs ce hce hl x hx
    have hiv : i.start ≤ i.«end» := hl i (List.mem_cons_self i rest)
    have hrest : ∀ j ∈ rest, j.valid := fun j hj => hl j (List.mem_cons_of_mem i hj)
    simp only [unionSweep] at hx
    by_cases h1 : (TimeInterval.mk cs ce).is_disjoint_with i
    · simp only [h1, Bool.not_true, Bool.false_eq_true, if_false] at hx
      by_cases h3 : i.start = ce
      · simp only [if_pos h3] at hx
        exact ih cs i.«end» (by omega) hrest x hx
      · simp only [if_neg h3] at hx
        rcases List.mem_cons.mp hx with hx | hx
        · subst hx
          exact hce
        · exact ih i.start i.«end» hiv hrest x hx
    · have h1' : (TimeInterval.mk cs ce).is_disjoint_with i = false :=
        Bool.eq_false_iff.mpr h1
      simp only [h1', Bool.not_false, if_true] at hx
      by_cases h2 : ce < i.«end»
      · simp only [if_pos h2] at hx
        exact ih cs i.«end» (by omega) hrest x hx
      · simp only [if_neg h2] at hx
        exact ih cs ce hce hrest x hx

theorem compute_internal_union_valid (ts : TimeSet) (h : ts.all_valid) :
    ts.compute_internal_union.all_valid := by
  intro x hx
  rcases hts : ts.time_intervals with _ | ⟨a, l⟩
  · simp only [TimeSet.compute_internal_union, hts] at hx
    simp at hx
  · simp only [TimeSet.compute_internal_union, hts] at hx
    rcases hms : (a :: l).mergeSort byStart with _ | ⟨first, rest⟩
    · simp only [hms] at hx
      simp at hx
    · simp only [hms] at hx
      have hmem : ∀ i ∈ first :: rest, i.valid := by
        intro i hi
        rw [← hms] at hi
        have := List.mem_mergeSort.mp hi
        rw [← hts] at this
        exact h i this
      have hfv : first.valid := hmem first (List.mem_cons_self first rest)
      exact unionSweep_valid (first :: rest) first.start first.«end» hfv hmem x hx

theorem timeinterval_intersection_valid (o : Option TimeInterval) (t2 : TimeInterval)
    (ho : ∀ t1, o = some t1 → t1.valid) (h2 : t2.valid) :
    ∀ r, TimeSet.timeinterval_intersection o t2 = some r → r.valid := by
  intro r hr
  rcases o with _ | t1
  · simp [TimeSet.timeinterval_intersection] at hr
  · have h1 : t1.valid := ho t1 rfl
    have h1' : t1.start ≤ t1.«end» := h1
    have h2' : t2.start ≤ t2.«end» := h2
    simp only [TimeSet.timeinterval_intersection] at hr
    split_ifs at hr with hd hn1 hn2
    · cases hr
      exact h1
    · cases hr
      exact h2
    · cases hr
      have hd' := (is_disjoint_with_false_iff t1 t2).mp (Bool.eq_false_iff.mpr hd)
      show max t1.start t2.start ≤ min t1.«end» t2.«end»
      omega

theorem internal_intersection_fold_valid (rest : List TimeInterval) :
    ∀ (o : Option TimeInterval), (∀ t1, o = some t1 → t1.valid) → (∀ t ∈ rest, t.valid) →
      ∀ r, rest.foldl TimeSet.timeinterval_intersection o = some r → r.valid := by
  induction rest with
  | nil =>
    intro o ho _ r hr
    exact ho r hr
  | cons t rest ih =>
    intro o ho hrest r hr
    simp only [List.foldl_cons] at hr
    refine ih _ ?_ (fun x hx => hrest x (List.mem_cons_of_mem t hx)) r hr
    exact timeinterval_intersection_valid o t ho (hrest t (List.mem_cons_self t rest))

theorem compute_internal_intersection_valid (ts : TimeSet) (h : ts.all_valid) :
    ts.compute_internal_intersection.all_valid := by
  intro x hx
  unfold TimeSet.compute_internal_intersection at hx
  split_ifs at hx with h1
  · simp at hx
  · rcases hts : ts.time_intervals with _ | ⟨first, rest⟩
    · simp only [hts] at hx
      simp at hx
    · simp only [hts] at hx
      rcases hf : rest.foldl TimeSet.timeinterval_intersection (some first) with _ | i
      · simp only [hf] at hx
        simp at hx
      · simp only [hf] at hx
        rw [List.mem_singleton] at hx
        subst hx
        refine internal_intersection_fold_valid rest (some first) ?_ ?_ x hf
        · intro t1 ht1
          cases ht1
          exact h first (by rw [hts]; exact List.mem_cons_self first rest)
        · intro t ht
          exact h t (by rw [hts]; exact List.mem_cons_of_mem first ht)

theorem compute_intersection_valid (A B : TimeSet) (hA : A.all_valid) (hB : B.all_valid) :
    (A.compute_intersection B).all_valid := by
  intro x hx
  simp only [TimeSet.compute_intersection, List.mem_flatMap, List.mem_filterMap] at hx
  obtain ⟨ti, hti, tj, htj, hinter⟩ := hx
  have hti' : ti.valid := compute_internal_union_valid A hA ti hti
  have htj' : tj.valid := compute_internal_union_valid B hB tj htj
  exact timeinterval_intersection_valid (some ti) tj
    (fun t1 ht1 => by cases ht1; exact hti') htj' x hinter

theorem compute_union_valid (A B : TimeSet) (hA : A.all_valid) (hB : B.all_valid) :
    (A.compute_union B).all_valid := by
  refine compute_internal_union_valid _ ?_
  intro x hx
  rcases List.mem_append.mp hx with h | h
  · exact hA x h
  · exact hB x h

theorem clamp_valid (ts : TimeSet) (ns ne : Option Int) : (ts.clamp ns ne).all_valid := by
  intro x hx
  have heq : (ts.clamp ns ne).time_intervals =
      ts.time_intervals.filterMap (clampClipSpec ns ne) := by
    unfold TimeSet.clamp
    simpa using clamp_fold_eq ns ne ts.time_intervals []
  rw [heq] at hx
  rw [List.mem_filterMap] at hx
  obtain ⟨ti, _, hclip⟩ := hx
  unfold clampClipSpec at hclip
  split_ifs at hclip with h
  cases hclip
  exact h

/-- Claim C9: every public operation, applied to operands whose intervals all
satisfy the construction invariant `start <= end`, produces a `TimeSet` whose
intervals all satisfy it again, so no internal `TimeInterval` construction can
fail. -/
theorem c9_operations_preserve_validity (A B : TimeSet) (ti : TimeInterval)
    (ns ne : Option Int) (hA : A.all_valid) (hB : B.all_valid) (hti : ti.valid) :
    (A.add_set B).all_valid ∧
    (A.add_interval ti).all_valid ∧
    (TimeSet.subtract_timeset_from_timeset A B).all_valid ∧
    (TimeSet.subtract_timeinterval_from_timeset A ti).all_valid ∧
    A.compute_internal_union.all_valid ∧
    A.compute_internal_intersection.all_valid ∧
    (A.compute_intersection B).all_valid ∧
    (A.compute_union B).all_valid ∧
    (A.clamp ns ne).all_valid := by
  refine ⟨?_, ?_, ?_, ?_, ?_, ?_, ?_, ?_, ?_⟩
  · intro x hx
    rcases List.mem_append.mp hx with h | h
    · exact hA x h
    · exact hB x h
  · intro x hx
    rcases List.mem_append.mp hx with h | h
    · exact hA x h
    · rw [List.mem_singleton] at h
      subst h
      exact hti
  · exact subtract_sets_valid A B hA hB
  · exact subtract_ti_ts_valid A ti hA hti
  · exact compute_internal_union_valid A hA
  · exact compute_internal_intersection_valid A hA
  · exact compute_intersection_valid A B hA hB
  · exact compute_union_valid A B hA hB
  · exact clamp_valid A ns ne

/-- Witness for C9 at small concrete operands. -/
theorem c9_operations_preserve_validity_witness :
    ((TimeSet.mk [TimeInterval.mk 0 4, TimeInterval.mk 2 6]).add_set
        (TimeSet.mk [TimeInterval.mk 1 3])).all_valid ∧
    ((TimeSet.mk [TimeInterval.mk 0 4, TimeInterval.mk 2 6]).add_interval
        (TimeInterval.mk 1 2)).all_valid ∧
    (TimeSet.subtract_timeset_from_timeset
        (TimeSet.mk [TimeInterval.mk 0 4, TimeInterval.mk 2 6])
        (TimeSet.mk [TimeInterval.mk 1 3])).all_valid ∧
    (TimeSet.subtract_timeinterval_from_timeset
        (TimeSet.mk [TimeInterval.mk 0 4, TimeInterval.mk 2 6])
        (TimeInterval.mk 1 2)).all_valid ∧
    (TimeSet.mk [TimeInterval.mk 0 4, TimeInterval.mk 2 6]).compute_internal_union.all_valid ∧
    (TimeSet.mk [TimeInterval.mk 0 4,
        TimeInterval.mk 2 6]).compute_internal_intersection.all_valid ∧
    ((TimeSet.mk [TimeInterval.mk 0 4, TimeInterval.mk 2 6]).compute_intersection
        (TimeSet.mk [TimeInterval.mk 1 3])).all_valid ∧
    ((TimeSet.mk [TimeInterval.mk 0 4, TimeInterval.mk 2 6]).compute_union
        (TimeSet.mk [TimeInterval.mk 1 3])).all_valid ∧
    ((TimeSet.mk [TimeInterval.mk 0 4, TimeInterval.mk 2 6]).clamp
        (some 1) (some 5)).all_valid :=
  c9_operations_preserve_validity
    (TimeSet.mk [TimeInterval.mk 0 4, TimeInterval.mk 2 6])
    (TimeSet.mk [TimeInterval.mk 1 3]) (TimeInterval.mk 1 2) (some 1) (some 5)
    (by decide) (by decide) (by decide)

theorem is_disjoint_with_comm (a b : TimeInterval) :
    a.is_disjoint_with b = b.is_disjoint_with a := by
  simp [TimeInterval.is_disjoint_with, Bool.or_comm]

theorem timeinterval_intersection_comm (a b : TimeInterval) :
    TimeSet.timeinterval_intersection (some a) b =
      TimeSet.timeinterval_intersection (some b) a := by
  have hd' := is_disjoint_with_comm a b
  by_cases hd : a.is_disjoint_with b
  · simp [TimeSet.timeinterval_intersection, hd, hd' ▸ hd]
  · have hdb : ¬(b.is_disjoint_with a = true) := by rw [← hd']; exact hd
    by_cases hab : a.is_nested_in b <;> by_cases hba : b.is_nested_in a
    · have hab' := (is_nested_in_iff a b).mp hab
      have hba' := (is_nested_in_iff b a).mp hba
      have : a = b := by
        cases a
        cases b
        simp only [TimeInterval.mk.injEq]
        simp only at hab' hba'
        omega
      subst this
      rfl
    · simp [TimeSet.timeinterval_intersection, hd, hdb, hab, hba]
    · simp [TimeSet.timeinterval_intersection, hd, hdb, hab, hba]
    · simp [TimeSet.timeinterval_intersection, hd, hdb, hab, hba, max_comm, min_comm]

theorem flatMap_flatMap_perm (la lb : List TimeInterval)
    (f g : TimeInterval → TimeInterval → Option TimeInterval)
    (hfg : ∀ a b, f a b = g b a) :
    (la.flatMap fun a => lb.flatMap fun b => (f a b).toList).Perm
      (lb.flatMap fun b => la.flatMap fun a => (g b a).toList) := by
  have hg : (fun b => la.flatMap fun a => ((g b a).toList)) =
      (fun b => la.flatMap fun a => ((f a b).toList)) := by
    funext b
    congr 1
    funext a
    rw [hfg]
  rw [hg, ← Multiset.coe_eq_coe]
  simp only [← Multiset.coe_bind]
  exact Multiset.bind_bind (la : Multiset TimeInterval) (lb : Multiset TimeInterval)

/-- Claim C6: `compute_intersection` is symmetric up to permutation of the
resulting interval list. -/
theorem c6_compute_intersection_perm (A B : TimeSet) :
    (A.compute_intersection B).time_intervals.Perm
      (B.compute_intersection A).time_intervals := by
  simp only [TimeSet.compute_intersection, List.filterMap_eq_flatMap_toList]
  exact flatMap_flatMap_perm _ _ _ _ timeinterval_intersection_comm

theorem unionSweep_start_ge :
    ∀ (l : List TimeInterval) (cs ce : Int),
      (∀ i ∈ l, cs ≤ i.start) → l.Pairwise (fun a b => a.start ≤ b.start) →
      ∀ x ∈ unionSweep cs ce l, cs ≤ x.start := by
  intro l
  induction l with
  | nil =>
    intro cs ce _ _ x hx
    simp only [unionSweep, List.mem_singleton] at hx
    subst hx
    exact le_refl cs
  | cons i rest ih =>
    intro cs ce hl hp x hx
    have hp1 : ∀ j ∈ rest, i.start ≤ j.start := (List.pairwise_cons.mp hp).1
    have hp2 : rest.Pairwise (fun a b => a.start ≤ b.start) := (List.pairwise_cons.mp hp).2
    have hrest : ∀ j ∈ rest, cs ≤ j.start := fun j hj => hl j (List.mem_cons_of_mem i hj)
    have his : cs ≤ i.start := hl i (List.mem_cons_self i rest)
    simp only [unionSweep] at hx
    by_cases h1 : (TimeInterval.mk cs ce).is_disjoint_with i
    · simp only [h1, Bool.not_true, Bool.false_eq_true, if_false] at hx
      by_cases h3 : i.start = ce
      · simp only [if_pos h3] at hx
        exact ih cs i.«end» hrest hp2 x hx
      · simp only [if_neg h3] at hx
        rcases List.mem_cons.mp hx with hx | hx
        · subst hx
          exact le_refl cs
        · exact le_trans his (ih i.start i.«end» hp1 hp2 x hx)
    · have h1' : (TimeInterval.mk cs ce).is_disjoint_with i = false :=
        Bool.eq_false_iff.mpr h1
      simp only [h1', Bool.not_false, if_true] at hx
      by_cases h2 : ce < i.«end»
      · simp only [if_pos h2] at hx
        exact ih cs i.«end» hrest hp2 x hx
      · simp only [if_neg h2] at hx
        exact ih cs ce hrest hp2 x hx

theorem unionSweep_gap :
    ∀ (l : List TimeInterval) (cs ce : Int),
      (∀ i ∈ l, cs ≤ i.start) → l.Pairwise (fun a b => a.start ≤ b.start) →
      (∀ i ∈ l, i.start < i.«end») →
      (unionSweep cs ce l).Pairwise (fun a b => a.«end» < b.start) := by
  intro l
  induction l with
  | nil =>
    intro cs ce _ _ _
    simp [unionSweep]
  | cons i rest ih =>
    intro cs ce hl hp hne
    have hp1 : ∀ j ∈ rest, i.start ≤ j.start := (List.pairwise_cons.mp hp).1
    have hp2 : rest.Pairwise (fun a b => a.start ≤ b.start) := (List.pairwise_cons.mp hp).2
    have hrest : ∀ j ∈ rest, cs ≤ j.start := fun j hj => hl j (List.mem_cons_of_mem i hj)
    have hnerest : ∀ j ∈ rest, j.start < j.«end» :=
      fun j hj => hne j (List.mem_cons_of_mem i hj)
    have his : cs ≤ i.start := hl i (List.mem_cons_self i rest)
    have hine : i.start < i.«end» := hne i (List.mem_cons_self i rest)
    simp only [unionSweep]
    by_cases h1 : (TimeInterval.mk cs ce).is_disjoint_with i
    · simp only [h1, Bool.not_true, Bool.false_eq_true, if_false]
      by_cases h3 : i.start = ce
      · simp only [if_pos h3]
        exact ih cs i.«end» hrest hp2 hnerest
      · simp only [if_neg h3]
        have hd := (is_disjoint_with_iff _ _).mp h1
        have hce : ce < i.start := by
          simp only at hd
          omega
        rw [List.pairwise_cons]
        constructor
        · intro x hx
          have := unionSweep_start_ge rest i.start i.«end» hp1 hp2 x hx
          show ce < x.start
          omega
        · exact ih i.start i.«end» hp1 hp2 hnerest
    · have h1' : (TimeInterval.mk cs ce).is_disjoint_with i = false :=
        Bool.eq_false_iff.mpr h1
      simp only [h1', Bool.not_false, if_true]
      by_cases h2 : ce < i.«end»
      · simp only [if_pos h2]
        exact ih cs i.«end» hrest hp2 hnerest
      · simp only [if_neg h2]
        exact ih cs ce hrest hp2 hnerest

theorem unionSweep_runs_nonempty :
    ∀ (l : List TimeInterval) (cs ce : Int), cs < ce → (∀ i ∈ l, i.start < i.«end») →
      ∀ x ∈ unionSweep cs ce l, x.start < x.«end» := by
  intro l
  induction l with
  | nil =>
    intro cs ce hce _ x hx
    simp only [unionSweep, List.mem_singleton] at hx
    subst hx
    exact hce
  | cons i rest ih =>
    intro cs ce hce hne x hx
    have hine : i.start < i.«end» := hne i (List.mem_cons_self i rest)
    have hnerest : ∀ j ∈ rest, j.start < j.«end» :=
      fun j hj => hne j (List.mem_cons_of_mem i hj)
    simp only [unionSweep] at hx
    by_cases h1 : (TimeInterval.mk cs ce).is_disjoint_with i
    · simp only [h1, Bool.not_true, Bool.false_eq_true, if_false] at hx
      by_cases h3 : i.start = ce
      · simp only [if_pos h3] at hx
        exact ih cs i.«end» (by omega) hnerest x hx
      · simp only [if_neg h3] at hx
        rcases List.mem_cons.mp hx with hx | hx
        · subst hx
          exact hce
        · exact ih i.start i.«end» hine hnerest x hx
    · have h1' : (TimeInterval.mk cs ce).is_disjoint_with i = false :=
        Bool.eq_false_iff.mpr h1
      simp only [h1', Bool.not_false, if_true] at hx
      by_cases h2 : ce < i.«end»
      · simp only [if_pos h2] at hx
        exact ih cs i.«end» (by omega) hnerest x hx
      · simp only [if_neg h2] at hx
        exact ih cs ce hce hnerest x hx

theorem unionSweep_ne_nil : ∀ (l : List TimeInterval) (cs ce : Int), unionSweep cs ce l ≠ [] := by
  intro l
  induction l with
  | nil => intro cs ce; simp [unionSweep]
  | cons i rest ih =>
    intro cs ce
    simp only [unionSweep]
    by_cases h1 : (TimeInterval.mk cs ce).is_disjoint_with i
    · simp only [h1, Bool.not_true, Bool.false_eq_true, if_false]
      by_cases h3 : i.start = ce
      · simp only [if_pos h3]
        exact ih cs i.«end»
      · simp only [if_neg h3]
        simp
    · have h1' : (TimeInterval.mk cs ce).is_disjoint_with i = false :=
        Bool.eq_false_iff.mpr h1
      simp only [h1', Bool.not_false, if_true]
      by_cases h2 : ce < i.«end»
      · simp only [if_pos h2]
        exact ih cs i.«end»
      · simp only [if_neg h2]
        exact ih cs ce

theorem unionSweep_fixed :
    ∀ (l : List TimeInterval) (cs ce : Int), cs < ce →
      (∀ x ∈ l, x.start < x.«end») → (∀ x ∈ l, ce < x.start) →
      l.Pairwise (fun a b => a.«end» < b.start) →
      unionSweep cs ce l = TimeInterval.mk cs ce :: l := by
  intro l
  induction l with
  | nil => intro cs ce _ _ _ _; rfl
  | cons r rest ih =>
    intro cs ce hce hne hgt hp
    have hrne : r.start < r.«end» := hne r (List.mem_cons_self r rest)
    have hrgt : ce < r.start := hgt r (List.mem_cons_self r rest)
    have hd : (TimeInterval.mk cs ce).is_disjoint_with r = true := by
      simp only [is_disjoint_with_iff]
      left
      omega
    simp only [unionSweep, hd, Bool.not_true, Bool.false_eq_true, if_false]
    rw [if_neg (by omega : ¬ r.start = ce)]
    rw [ih r.start r.«end» hrne
      (fun x hx => hne x (List.mem_cons_of_mem r hx))
      (fun x hx => (List.pairwise_cons.mp hp).1 x hx)
      (List.pairwise_cons.mp hp).2]

theorem mergeSort_byStart_sorted (l : List TimeInterval) :
    (l.mergeSort byStart).Pairwise (fun a b => a.start ≤ b.start) := by
  have h := @List.sorted_mergeSort TimeInterval byStart
    (fun a b c hab hbc => by
      simp only [byStart, decide_eq_true_eq] at hab hbc ⊢
      omega)
    (fun a b => by
      simp only [byStart, Bool.or_eq_true, decide_eq_true_eq]
      omega)
    l
  exact h.imp (fun hab => by simpa [byStart] using hab)

/-- The normal form of `compute_internal_union` on a non-empty set. -/
theorem compute_internal_union_eq (S : TimeSet) (first : TimeInterval)
    (rest : List TimeInterval)
    (hms : S.time_intervals.mergeSort byStart = first :: rest) :
    S.compute_internal_union =
      TimeSet.mk (unionSweep first.start first.«end» (first :: rest)) := by
  rcases hS : S.time_intervals with _ | ⟨a, l⟩
  · rw [hS] at hms
    simp [List.mergeSort] at hms
  · rw [hS] at hms
    simp only [TimeSet.compute_internal_union, hS, hms]

theorem mergeSort_nonempty_cons (S : TimeSet) (a : TimeInterval) (l : List TimeInterval)
    (hS : S.time_intervals = a :: l) :
    ∃ first rest, S.time_intervals.mergeSort byStart = first :: rest := by
  rcases hms : S.time_intervals.mergeSort byStart with _ | ⟨first, rest⟩
  · have := congrArg List.length hms
    rw [List.length_mergeSort, hS] at this
    simp at this
  · exact ⟨first, rest, rfl⟩

/-- The structure of `compute_internal_union`'s output on a set of non-empty
intervals: runs in strictly increasing start order, separated by true gaps,
each run itself non-empty. -/
theorem compute_internal_union_structure (S : TimeSet)
    (h : ∀ ti ∈ S.time_intervals, ti.start < ti.«end») :
    S.compute_internal_union.time_intervals.Pairwise
        (fun a b => a.«end» < b.start) ∧
      ∀ x ∈ S.compute_internal_union.time_intervals, x.start < x.«end» := by
  rcases hS : S.time_intervals with _ | ⟨a, l⟩
  · constructor
    · simp [TimeSet.compute_internal_union, hS]
    · intro x hx
      simp [TimeSet.compute_internal_union, hS] at hx
  · obtain ⟨first, rest, hms⟩ := mergeSort_nonempty_cons S a l hS
    rw [compute_internal_union_eq S first rest hms]
    have hsorted : (first :: rest).Pairwise (fun a b => a.start ≤ b.start) := by
      rw [← hms]
      exact mergeSort_byStart_sorted S.time_intervals
    have hmem : ∀ i ∈ first :: rest, i.start < i.«end» := by
      intro i hi
      rw [← hms] at hi
      exact h i (List.mem_mergeSort.mp hi)
    have hfirst : ∀ i ∈ first :: rest, first.start ≤ i.start := by
      intro i hi
      rcases List.mem_cons.mp hi with hi | hi
      · subst hi; exact le_refl _
      · exact (List.pairwise_cons.mp hsorted).1 i hi
    constructor
    · exact unionSweep_gap (first :: rest) first.start first.«end» hfirst hsorted hmem
    · exact unionSweep_runs_nonempty (first :: rest) first.start first.«end»
        (hmem first (List.mem_cons_self first rest)) hmem

/-- Claim C3 (amended): on a `TimeSet` whose member intervals are all
non-empty, `compute_internal_union` returns intervals in strictly ascending
start order that pairwise share no instant.  With single-point members the
no-shared-instant guarantee fails (see the counterexample). -/
theorem c3_union_separated_nonempty (S : TimeSet)
    (h : ∀ ti ∈ S.time_intervals, ti.start < ti.«end») :
    S.compute_internal_union.time_intervals.Pairwise (fun a b => a.start < b.start) ∧
    S.compute_internal_union.time_intervals.Pairwise
      (fun a b => ∀ t : Int, a.start ≤ t → t ≤ a.«end» → ¬(b.start ≤ t ∧ t ≤ b.«end»)) := by
  obtain ⟨hgap, hne⟩ := compute_internal_union_structure S h
  constructor
  · refine List.Pairwise.imp_of_mem ?_ hgap
    intro a b ha _ hr
    have := hne a ha
    omega
  · refine List.Pairwise.imp ?_ hgap
    intro a b hr t ht1 ht2 hc
    omega

/-- Witness for the amended C3 at `[[0,1],[2,3]]`. -/
theorem c3_union_separated_nonempty_witness :
    (TimeSet.mk [TimeInterval.mk 0 1,
        TimeInterval.mk 2 3]).compute_internal_union.time_intervals.Pairwise
      (fun a b => a.start < b.start) ∧
    (TimeSet.mk [TimeInterval.mk 0 1,
        TimeInterval.mk 2 3]).compute_internal_union.time_intervals.Pairwise
      (fun a b => ∀ t : Int, a.start ≤ t → t ≤ a.«end» → ¬(b.start ≤ t ∧ t ≤ b.«end»)) :=
  c3_union_separated_nonempty (TimeSet.mk [TimeInterval.mk 0 1, TimeInterval.mk 2 3])
    (by decide)

/-- Counterexample to C3 as stated: with the single-point member `[0,0]` the
output of `compute_internal_union` keeps both `[0,5]` and `[0,0]`, which share
the instant `0`. -/
theorem c3_union_counterexample :
    (TimeSet.mk [TimeInterval.mk 0 5, TimeInterval.mk 0 0]).compute_internal_union =
      TimeSet.mk [TimeInterval.mk 0 5, TimeInterval.mk 0 0] ∧
    ¬ (TimeSet.mk [TimeInterval.mk 0 5,
        TimeInterval.mk 0 0]).compute_internal_union.time_intervals.Pairwise
        (fun a b => ∀ t : Int, a.start ≤ t → t ≤ a.«end» → ¬(b.start ≤ t ∧ t ≤ b.«end»)) := by
  have hms : ([TimeInterval.mk 0 5, TimeInterval.mk 0 0] : List TimeInterval).mergeSort
      byStart = [TimeInterval.mk 0 5, TimeInterval.mk 0 0] :=
    List.mergeSort_of_sorted (by simp [byStart])
  have heq : (TimeSet.mk [TimeInterval.mk 0 5,
      TimeInterval.mk 0 0]).compute_internal_union =
      TimeSet.mk [TimeInterval.mk 0 5, TimeInterval.mk 0 0] := by
    rw [compute_internal_union_eq _ (TimeInterval.mk 0 5) [TimeInterval.mk 0 0] hms]
    rfl
  refine ⟨heq, ?_⟩
  rw [heq]
  intro hp
  have h1 := (List.pairwise_cons.mp hp).1 (TimeInterval.mk 0 0)
    (List.mem_cons_self _ _)
  exact h1 0 (by norm_num) (by norm_num) ⟨by norm_num, by norm_num⟩

/-- Claim C5 (amended): `compute_internal_union` is idempotent on every
`TimeSet` whose member intervals are all non-empty.  With single-point members
idempotence fails (see the counterexample). -/
theorem c5_union_idempotent_nonempty (S : TimeSet)
    (h : ∀ ti ∈ S.time_intervals, ti.start < ti.«end») :
    S.compute_internal_union.compute_internal_union = S.compute_internal_union := by
  rcases hS : S.time_intervals with _ | ⟨a, l⟩
  · have hempty : S.compute_internal_union = TimeSet.mk [] := by
      simp [TimeSet.compute_internal_union, hS]
    rw [hempty]
    rfl
  · obtain ⟨first, rest, hms⟩ := mergeSort_nonempty_cons S a l hS
    have hU := compute_internal_union_eq S first rest hms
    obtain ⟨hgap, hne2⟩ := compute_internal_union_structure S h
    rw [hU] at hgap hne2 ⊢
    rcases ho2 : unionSweep first.start first.«end» (first :: rest) with _ | ⟨h2, t2⟩
    · exact absurd ho2 (unionSweep_ne_nil _ _ _)
    · rw [ho2] at hgap hne2
      simp only at hgap hne2
      have hh2 : h2.start < h2.«end» := hne2 h2 (List.mem_cons_self h2 t2)
      have hgap1 : ∀ x ∈ t2, h2.«end» < x.start := (List.pairwise_cons.mp hgap).1
      have hgap2 : t2.Pairwise (fun a b => a.«end» < b.start) :=
        (List.pairwise_cons.mp hgap).2
      have hsorted : (h2 :: t2).Pairwise (fun x y => byStart x y = true) := by
        refine List.Pairwise.imp_of_mem ?_ hgap
        intro x y hx _ hr
        have := hne2 x hx
        simp only [byStart, decide_eq_true_eq]
        omega
      have hms2 : (h2 :: t2).mergeSort byStart = h2 :: t2 :=
        List.mergeSort_of_sorted hsorted
      have hU2 := compute_internal_union_eq (TimeSet.mk (h2 :: t2)) h2 t2 hms2
      rw [hU2]
      have hd : (TimeInterval.mk h2.start h2.«end»).is_disjoint_with h2 = false :=
        (is_disjoint_with_false_iff _ _).mpr ⟨hh2, hh2⟩
      have hstep : unionSweep h2.start h2.«end» (h2 :: t2) =
          unionSweep h2.start h2.«end» t2 := by
        simp only [unionSweep, hd, Bool.not_false, if_true]
        rw [if_neg (by omega : ¬ h2.«end» < h2.«end»)]
      have hfix := unionSweep_fixed t2 h2.start h2.«end» hh2
        (fun x hx => hne2 x (List.mem_cons_of_mem h2 hx)) hgap1 hgap2
      rw [hstep, hfix]

/-- Witness for the amended C5 at `[[0,2],[1,3]]`. -/
theorem c5_union_idempotent_nonempty_witness :
    (TimeSet.mk [TimeInterval.mk 0 2,
        TimeInterval.mk 1 3]).compute_internal_union.compute_internal_union =
      (TimeSet.mk [TimeInterval.mk 0 2, TimeInterval.mk 1 3]).compute_internal_union :=
  c5_union_idempotent_nonempty (TimeSet.mk [TimeInterval.mk 0 2, TimeInterval.mk 1 3])
    (by decide)

/-- Counterexample to C5 as stated: on `[[0,5],[0,0],[0,3]]` one application of
`compute_internal_union` yields `[[0,5],[0,3]]`, and a second application
merges that to `[[0,5]]`, so the two differ. -/
theorem c5_union_counterexample :
    (TimeSet.mk [TimeInterval.mk 0 5, TimeInterval.mk 0 0,
        TimeInterval.mk 0 3]).compute_internal_union.compute_internal_union ≠
      (TimeSet.mk [TimeInterval.mk 0 5, TimeInterval.mk 0 0,
        TimeInterval.mk 0 3]).compute_internal_union := by
  have hms1 : ([TimeInterval.mk 0 5, TimeInterval.mk 0 0,
      TimeInterval.mk 0 3] : List TimeInterval).mergeSort byStart =
      [TimeInterval.mk 0 5, TimeInterval.mk 0 0, TimeInterval.mk 0 3] :=
    List.mergeSort_of_sorted (by simp [byStart])
  have h1 : (TimeSet.mk [TimeInterval.mk 0 5, TimeInterval.mk 0 0,
      TimeInterval.mk 0 3]).compute_internal_union =
      TimeSet.mk [TimeInterval.mk 0 5, TimeInterval.mk 0 3] := by
    rw [compute_internal_union_eq _ (TimeInterval.mk 0 5)
      [TimeInterval.mk 0 0, TimeInterval.mk 0 3] hms1]
    rfl
  have hms2 : ([TimeInterval.mk 0 5, TimeInterval.mk 0 3] : List TimeInterval).mergeSort
      byStart = [TimeInterval.mk 0 5, TimeInterval.mk 0 3] :=
    List.mergeSort_of_sorted (by simp [byStart])
  have h2 : (TimeSet.mk [TimeInterval.mk 0 5,
      TimeInterval.mk 0 3]).compute_internal_union =
      TimeSet.mk [TimeInterval.mk 0 5] := by
    rw [compute_internal_union_eq _ (TimeInterval.mk 0 5) [TimeInterval.mk 0 3] hms2]
    rfl
  rw [h1, h2]
  simp

theorem timeset_eq_of_intervals {x y : TimeSet}
    (h : x.time_intervals = y.time_intervals) : x = y := by
  cases x
  cases y
  cases h
  rfl

theorem subtract_tt_total_of_disjoint (m s : TimeInterval)
    (h : m.is_disjoint_with s = true) :
    TimeSet.subtract_tt_total m s = TimeSet.mk [m] := by
  unfold TimeSet.subtract_tt_total TimeSet.subtract_timeinterval_from_timeinterval
  simp [h]

theorem subtract_ti_ts_nil (s : TimeInterval) :
    TimeSet.subtract_timeinterval_from_timeset (TimeSet.mk []) s = TimeSet.mk [] := rfl

theorem foldl_subtract_empty (rest : List TimeInterval) :
    rest.foldl (fun d s => TimeSet.subtract_timeinterval_from_timeset d s)
      (TimeSet.mk []) = TimeSet.mk [] := by
  induction rest with
  | nil => rfl
  | cons s rest ih =>
    simp only [List.foldl_cons, subtract_ti_ts_nil]
    exact ih

theorem map_mk_singleton_flatMap (l : List TimeInterval) :
    ((l.map (fun ti => TimeSet.mk [ti])).flatMap TimeSet.time_intervals) = l := by
  induction l with
  | nil => rfl
  | cons ti l ih => simp [ih]

theorem subtract_dom_unchanged (d : TimeSet) (s : TimeInterval)
    (h : ∀ ti ∈ d.time_intervals, ti.«end» ≤ s.start) :
    TimeSet.subtract_timeinterval_from_timeset d s = d := by
  refine timeset_eq_of_intervals ?_
  simp only [TimeSet.subtract_timeinterval_from_timeset]
  have hmap : d.time_intervals.map (fun ti => TimeSet.subtract_tt_total ti s) =
      d.time_intervals.map (fun ti => TimeSet.mk [ti]) := by
    refine List.map_congr_left ?_
    intro ti hti
    refine subtract_tt_total_of_disjoint ti s ?_
    rw [is_disjoint_with_iff]
    exact Or.inl (h ti hti)
  rw [hmap]
  have hfilter : (d.time_intervals.map (fun ti => TimeSet.mk [ti])).filter
      (fun ts => !ts.is_empty) = d.time_intervals.map (fun ti => TimeSet.mk [ti]) := by
    refine List.filter_eq_self.mpr ?_
    intro ts hts
    rw [List.mem_map] at hts
    obtain ⟨ti, _, rfl⟩ := hts
    simp [TimeSet.is_empty]
  rw [hfilter, foldl_add_set, List.nil_append, map_mk_singleton_flatMap]

theorem foldl_subtract_unchanged :
    ∀ (rest : List TimeInterval) (d : TimeSet) (c : Int),
      (∀ x ∈ rest, c ≤ x.start) → (∀ ti ∈ d.time_intervals, ti.«end» < c) →
      rest.foldl (fun d s => TimeSet.subtract_timeinterval_from_timeset d s) d = d := by
  intro rest
  induction rest with
  | nil => intro d c _ _; rfl
  | cons s rest ih =>
    intro d c hs hd
    have hstep : TimeSet.subtract_timeinterval_from_timeset d s = d := by
      refine subtract_dom_unchanged d s ?_
      intro ti hti
      have h1 := hd ti hti
      have h2 := hs s (List.mem_cons_self s rest)
      omega
    simp only [List.foldl_cons, hstep]
    exact ih d c (fun x hx => hs x (List.mem_cons_of_mem s hx)) hd

theorem init_le_foldl_max : ∀ (es : List Int) (e : Int), e ≤ es.foldl max e := by
  intro es
  induction es with
  | nil => intro e; exact le_refl e
  | cons a es ih =>
    intro e
    simp only [List.foldl_cons]
    exact le_trans (le_max_left e a) (ih (max e a))

theorem le_foldl_max : ∀ (es : List Int) (e x : Int), x = e ∨ x ∈ es → x ≤ es.foldl max e := by
  intro es
  induction es with
  | nil =>
    intro e x hx
    rcases hx with hx | hx
    · subst hx; exact le_refl x
    · simp at hx
  | cons a es ih =>
    intro e x hx
    simp only [List.foldl_cons]
    rcases hx with hx | hx
    · subst hx
      exact le_trans (le_max_left x a) (init_le_foldl_max es (max x a))
    · rcases List.mem_cons.mp hx with hx | hx
      · subst hx
        exact le_trans (le_max_right e x) (init_le_foldl_max es (max e x))
      · exact ih (max e a) x (Or.inr hx)

theorem subtract_loop_eq_foldl :
    ∀ (ss : List TimeInterval) (d : TimeSet),
      ss.Pairwise (fun a b => a.start ≤ b.start) →
      TimeSet.subtract_loop d ss =
        ss.foldl (fun d s => TimeSet.subtract_timeinterval_from_timeset d s) d := by
  intro ss
  induction ss with
  | nil => intro d _; rfl
  | cons s rest ih =>
    intro d hp
    have hp1 : ∀ x ∈ rest, s.start ≤ x.start := (List.pairwise_cons.mp hp).1
    have hp2 : rest.Pairwise (fun a b => a.start ≤ b.start) := (List.pairwise_cons.mp hp).2
    simp only [TimeSet.subtract_loop, List.foldl_cons]
    by_cases h1 : (TimeSet.subtract_timeinterval_from_timeset d s).is_empty
    · rw [if_pos h1]
      have h1' : TimeSet.subtract_timeinterval_from_timeset d s = TimeSet.mk [] :=
        timeset_eq_of_intervals ((timeset_is_empty_iff _).mp h1)
      rw [h1', foldl_subtract_empty]
    · rw [if_neg h1]
      rcases hmap : (TimeSet.subtract_timeinterval_from_timeset d s).time_intervals.map
          (fun ti => ti.«end») with _ | ⟨e, es⟩
      · rw [List.map_eq_nil_iff] at hmap
        exact absurd ((timeset_is_empty_iff _).mpr hmap) h1
      · simp only [hmap]
        by_cases h2 : es.foldl max e < s.start
        · rw [if_pos h2]
          symm
          refine foldl_subtract_unchanged rest
            (TimeSet.subtract_timeinterval_from_timeset d s) s.start hp1 ?_
          intro ti hti
          have hmem : ti.«end» ∈ e :: es := by
            rw [← hmap]
            exact List.mem_map_of_mem (fun ti => ti.«end») hti
          have hle : ti.«end» ≤ es.foldl max e := by
            rcases List.mem_cons.mp hmem with hm | hm
            · exact le_foldl_max es e ti.«end» (Or.inl hm)
            · exact le_foldl_max es e ti.«end» (Or.inr hm)
          omega
        · rw [if_neg h2]
          exact ih (TimeSet.subtract_timeinterval_from_timeset d s) hp2

/-- The unoptimized set-minus-set subtraction exactly as the specification
describes it: for each minuend interval, taken in sorted-by-start order,
subtract every subtrahend interval (also in sorted order, with no early exit)
and concatenate the non-empty per-minuend differences.  Stated from the
specification's words, to be compared with `subtract_timeset_from_timeset`. -/
def naiveSubtractSpec (minuend subtrahend : TimeSet) : TimeSet :=
  let sortedM := minuend.time_intervals.mergeSort byStart
  let sortedS := subtrahend.time_intervals.mergeSort byStart
  TimeSet.mk
    (((sortedM.map (fun m =>
        sortedS.foldl (fun d s => TimeSet.subtract_timeinterval_from_timeset d s)
          (TimeSet.mk [m]))).filter
        (fun d => !d.is_empty)).flatMap TimeSet.time_intervals)

theorem filter_empty_flatMap (g : TimeInterval → TimeSet) :
    ∀ L : List TimeInterval,
      ((L.map g).filter (fun d => !d.is_empty)).flatMap TimeSet.time_intervals =
        L.flatMap (fun m => (g m).time_intervals) := by
  intro L
  induction L with
  | nil => rfl
  | cons m L ih =>
    simp only [List.map_cons, List.flatMap_cons]
    by_cases h : (g m).is_empty
    · have h' := (timeset_is_empty_iff _).mp h
      rw [List.filter_cons]
      simp only [h, Bool.not_true, Bool.false_eq_true, if_false, ih, h']
      simp
    · rw [List.filter_cons]
      simp only [h, Bool.not_false, if_true, List.flatMap_cons, ih]

/-- Claim C2: the optimized set-minus-set algorithm, with its two early exits,
computes exactly the naive subtraction that scans every subtrahend for every
minuend interval: the concatenation, in minuend-sorted order, of the non-empty
per-minuend differences. -/
theorem c2_subtract_sets_eq_naive (A B : TimeSet) :
    TimeSet.subtract_timeset_from_timeset A B = naiveSubtractSpec A B := by
  refine timeset_eq_of_intervals ?_
  simp only [TimeSet.subtract_timeset_from_timeset, naiveSubtractSpec]
  rw [subtract_sets_fold, List.nil_append]
  rw [filter_empty_flatMap]
  have hsorted : (B.time_intervals.mergeSort byStart).Pairwise
      (fun a b => a.start ≤ b.start) := mergeSort_byStart_sorted B.time_intervals
  have hfun : (fun m => (TimeSet.subtract_loop (TimeSet.mk [m])
        (B.time_intervals.mergeSort byStart)).time_intervals) =
      (fun m => ((B.time_intervals.mergeSort byStart).foldl
        (fun d s => TimeSet.subtract_timeinterval_from_timeset d s)
        (TimeSet.mk [m])).time_intervals) := by
    funext m
    rw [subtract_loop_eq_foldl _ _ hsorted]
  rw [hfun]
